import Mathlib

/-!
Shallow embedding of the `nblock_delay` class from `src/non_blocking_delay.h`
of the esp32-power-controller repository.

`unsigned long` on the ESP32/Arduino target is 32 bits wide, so its values are
modelled as naturals reduced modulo `2 ^ 32` at every point where the C++ code
stores or produces an `unsigned long`.  The monotonic clock `millis()` is an
external input: each method that reads the clock takes the raw clock value as
an explicit argument, and the observed 32-bit reading is that value modulo
`2 ^ 32`.  `elapsed()` calls `millis()` twice in the source (once in the
comparison on line 24 and once in the assignment on line 25), so its embedding
takes two clock arguments; the second is only consumed on the true branch.
Methods that mutate the object return a pair of the C++ return value and the
updated state; a method whose body contains no assignment returns the input
state unchanged, mirroring the absence of writes in the source.
-/

namespace NBD

/-- Width of the 32-bit `unsigned long` clock: values live in `[0, 2 ^ 32)`. -/
def W : Nat := 2 ^ 32

/-- Unsigned 32-bit subtraction `a - b`, i.e. `(a - b) mod 2 ^ 32` computed on
naturals: exactly the value of the C++ expression `millis() - lastTrigger_`. -/
def usub (a b : Nat) : Nat := (a % W + (W - b % W)) % W

/-- The data members of class `nblock_delay` (lines 82-84 of the header):
`unsigned long interval_` and `unsigned long lastTrigger_`, nothing else. -/
structure nblock_delay where
  interval : Nat
  lastTrigger : Nat
  deriving DecidableEq, Repr

namespace nblock_delay

/-- The constructor `nblock_delay(unsigned long interval_ms)` (lines 19-21):
stores `interval_ms` and a fresh `millis()` reading `now`. -/
def init (interval_ms now : Nat) : nblock_delay :=
  ⟨interval_ms % W, now % W⟩

/-- `bool elapsed()` (lines 23-29).  `now1` is the clock value read in the
comparison `millis() - lastTrigger_ >= interval_`; `now2` is the clock value
read by the second `millis()` call in `lastTrigger_ = millis()`, executed only
on the true branch. -/
def elapsed (s : nblock_delay) (now1 now2 : Nat) : Bool × nblock_delay :=
  if s.interval ≤ usub now1 s.lastTrigger then
    (true, ⟨s.interval, now2 % W⟩)
  else
    (false, s)

/-- `bool trigger()` (lines 35-37): `return elapsed();`. -/
def trigger (s : nblock_delay) (now1 now2 : Nat) : Bool × nblock_delay :=
  s.elapsed now1 now2

/-- `bool waiting()` (lines 53-55): `return (millis() - lastTrigger_) < interval_;`.
The body contains no assignment, so the state component is the input state. -/
def waiting (s : nblock_delay) (now : Nat) : Bool × nblock_delay :=
  (decide (usub now s.lastTrigger < s.interval), s)

/-- `void reset()` (lines 60-62): `lastTrigger_ = millis();`. -/
def reset (s : nblock_delay) (now : Nat) : nblock_delay :=
  ⟨s.interval, now % W⟩

/-- `void setInterval(unsigned long interval_ms)` (lines 68-70):
`interval_ = interval_ms;`. -/
def setInterval (s : nblock_delay) (interval_ms : Nat) : nblock_delay :=
  ⟨interval_ms % W, s.lastTrigger⟩

/-- `unsigned long remaining()` (lines 76-80).  The body contains no
assignment, so the state component is the input state. -/
def remaining (s : nblock_delay) (now : Nat) : Nat × nblock_delay :=
  (if s.interval ≤ usub now s.lastTrigger then 0
   else s.interval - usub now s.lastTrigger, s)

end nblock_delay

end NBD

namespace NBD

/-- On naturals below the clock width, `usub` recovers the true elapsed
duration: reading the clock a true duration `d` after the reading `L` was
stored observes `(L + d) % W`, and the unsigned subtraction against `L`
gives back `d` whenever `d < W`. -/
theorem usub_true_duration (L d : Nat) (h : L < W) (hd : d < W) :
    usub ((L + d) % W) L = d := by
  have hW : W = 4294967296 := by norm_num [W]
  simp only [usub, hW] at *
  omega

/-- C1: for every timer state and clock reads `now1` (used in the comparison)
and `now2` (the re-read stored on the true branch), `elapsed()` returns true
iff the unsigned modular difference `now1 - lastTrigger` is at least the
interval; on a true result it stores the observed current time (`now2` reduced
to 32 bits) in `lastTrigger` and keeps the interval; on a false result it
leaves the state unchanged; and `trigger()` behaves identically. -/
theorem elapsed_spec (s : nblock_delay) (now1 now2 : Nat) :
    ((s.elapsed now1 now2).1 = true ↔ s.interval ≤ usub now1 s.lastTrigger) ∧
    ((s.elapsed now1 now2).1 = true →
      (s.elapsed now1 now2).2 = ⟨s.interval, now2 % W⟩) ∧
    ((s.elapsed now1 now2).1 = false → (s.elapsed now1 now2).2 = s) ∧
    s.trigger now1 now2 = s.elapsed now1 now2 := by
  by_cases h : s.interval ≤ usub now1 s.lastTrigger <;>
    simp [nblock_delay.trigger, nblock_delay.elapsed, h]

/-- C1 witness: for a timer with interval 10 and lastTrigger 0, at clock
value 10 `elapsed()` fires and stores the re-read clock value 12. -/
theorem elapsed_spec_witness :
    (nblock_delay.elapsed ⟨10, 0⟩ 10 12).2 = ⟨10, 12 % W⟩ :=
  (elapsed_spec ⟨10, 0⟩ 10 12).2.1 (by decide)

/-- C2 counterexample: with lastTrigger `2 ^ 32 - 5` and interval 10, a call
to `elapsed()` when the clock reads 1 returns false, not true as the claim
states: the unsigned modular difference `1 - (2 ^ 32 - 5)` is 6, which is
the true elapsed duration at that reading and is below the interval 10. -/
theorem wraparound_claim_false :
    (nblock_delay.elapsed ⟨10, 2 ^ 32 - 5⟩ 1 1).1 = false ∧
    usub 1 (2 ^ 32 - 5) = 6 := by decide

/-- C2 amended: the unsigned modular subtraction recovers the true elapsed
duration whenever that duration is below `2 ^ 32`; in particular, for
lastTrigger `2 ^ 32 - 5` and interval 10, the reading after a true elapsed
duration of 11 ms is 6 (past wraparound), the modular difference is 11, and
`elapsed()` returns true there. -/
theorem wraparound_amended :
    (∀ L d : Nat, L < W → d < W → usub ((L + d) % W) L = d) ∧
    (2 ^ 32 - 5 + 11) % W = 6 ∧
    usub 6 (2 ^ 32 - 5) = 11 ∧
    (nblock_delay.elapsed ⟨10, 2 ^ 32 - 5⟩ 6 6).1 = true := by
  refine ⟨usub_true_duration, by decide, by decide, by decide⟩

/-- C2 amended witness: the general modular-recovery fact applied at
lastTrigger `2 ^ 32 - 5` and true duration 11. -/
theorem wraparound_amended_witness :
    usub ((2 ^ 32 - 5 + 11) % W) (2 ^ 32 - 5) = 11 :=
  wraparound_amended.1 (2 ^ 32 - 5) 11 (by decide) (by decide)

/-- C6: after `setInterval(0)`, the immediately following `elapsed()` call
returns true, for every prior state and every pair of clock reads. -/
theorem setInterval_zero_elapsed (s : nblock_delay) (n1 n2 : Nat) :
    ((s.setInterval 0).elapsed n1 n2).1 = true := by
  simp [nblock_delay.setInterval, nblock_delay.elapsed]

/-- C9: `trigger()` is extensionally identical to `elapsed()`: same boolean
result and same resulting state for every timer state and clock reads. -/
theorem trigger_eq_elapsed (s : nblock_delay) (n1 n2 : Nat) :
    s.trigger n1 n2 = s.elapsed n1 n2 := rfl

/-- C3: `waiting()` returns true iff the unsigned modular difference
`now - lastTrigger` is strictly below the interval; it is the boolean
negation of the result `elapsed()` would return at the same reading; and it
never modifies the state, under any number of repeated calls. -/
theorem waiting_spec (s : nblock_delay) (now n2 : Nat) :
    ((s.waiting now).1 = true ↔ usub now s.lastTrigger < s.interval) ∧
    (s.waiting now).1 = !(s.elapsed now n2).1 ∧
    (s.waiting now).2 = s ∧
    (∀ reads : List Nat, reads.foldl (fun t n => (t.waiting n).2) s = s) := by
  refine ⟨by simp [nblock_delay.waiting], ?_, rfl, ?_⟩
  · by_cases h : s.interval ≤ usub now s.lastTrigger
    · simp [nblock_delay.waiting, nblock_delay.elapsed, h, Nat.not_lt.mpr h]
    · simp [nblock_delay.waiting, nblock_delay.elapsed, h, Nat.lt_of_not_le h]
  · intro reads
    induction reads generalizing s with
    | nil => rfl
    | cons a l ih => exact ih ((s.waiting a).2)

/-- C4: `reset()` unconditionally stores the current clock reading in
`lastTrigger` and keeps the interval; an `elapsed()` call at the same instant
(the clock returning the same value as at the reset) returns false for every
nonzero interval and true exactly when the interval is 0. -/
theorem reset_spec (s : nblock_delay) (now n2 : Nat) :
    s.reset now = ⟨s.interval, now % W⟩ ∧
    ((s.reset now).elapsed now n2).1 = decide (s.interval = 0) := by
  have h0 : usub now (now % W) = 0 := by
    have hW : W = 4294967296 := by norm_num [W]
    simp only [usub, hW]
    omega
  refine ⟨rfl, ?_⟩
  show (nblock_delay.elapsed ⟨s.interval, now % W⟩ now n2).1 = _
  rw [nblock_delay.elapsed]
  simp only [h0, Nat.le_zero]
  by_cases h : s.interval = 0 <;> simp [h]

/-- C5: `setInterval(interval_ms)` replaces the interval field with the given
value and leaves `lastTrigger` unchanged, for every timer state and every
32-bit interval value. -/
theorem setInterval_spec (s : nblock_delay) (i : Nat) (h : i < W) :
    s.setInterval i = ⟨i, s.lastTrigger⟩ := by
  simp [nblock_delay.setInterval, Nat.mod_eq_of_lt h]

/-- C5 witness: setting interval 5 on a timer with interval 3 and
lastTrigger 7 yields interval 5 with lastTrigger still 7. -/
theorem setInterval_spec_witness :
    (⟨3, 7⟩ : nblock_delay).setInterval 5 = ⟨5, 7⟩ :=
  setInterval_spec ⟨3, 7⟩ 5 (by decide)

/-- C7: `remaining()` has no side effects; it returns 0 when the unsigned
modular elapsed time is at least the interval, and otherwise returns the
interval minus that elapsed time. -/
theorem remaining_spec (s : nblock_delay) (now : Nat) :
    (s.remaining now).2 = s ∧
    (s.interval ≤ usub now s.lastTrigger → (s.remaining now).1 = 0) ∧
    (usub now s.lastTrigger < s.interval →
      (s.remaining now).1 = s.interval - usub now s.lastTrigger) := by
  refine ⟨rfl, fun h => ?_, fun h => ?_⟩
  · simp [nblock_delay.remaining, h]
  · simp [nblock_delay.remaining, Nat.not_le.mpr h]

/-- C7 witness: a timer with interval 10 and lastTrigger 0, read at clock
value 3, has 7 ms remaining. -/
theorem remaining_spec_witness :
    (nblock_delay.remaining ⟨10, 0⟩ 3).1 = 7 :=
  (remaining_spec ⟨10, 0⟩ 3).2.2 (by decide)

/-- C8: between two triggers (lastTrigger fixed, true time advancing
monotonically with total elapsed duration below the clock width), the value
of `remaining()` at the observed clock readings is non-increasing; and
`remaining()` returns 0 exactly at the readings where `elapsed()` (hence
`trigger()`) would return true. -/
theorem remaining_monotone_spec :
    (∀ (s : nblock_delay) (t1 t2 : Nat),
      s.lastTrigger < W → s.lastTrigger ≤ t1 → t1 ≤ t2 → t2 - s.lastTrigger < W →
      (s.remaining (t2 % W)).1 ≤ (s.remaining (t1 % W)).1) ∧
    (∀ (s : nblock_delay) (now n2 : Nat),
      ((s.remaining now).1 = 0 ↔ (s.elapsed now n2).1 = true)) := by
  constructor
  · intro s t1 t2 hL h1 h12 hw
    have e2 : usub (t2 % W) s.lastTrigger = t2 - s.lastTrigger := by
      have := usub_true_duration s.lastTrigger (t2 - s.lastTrigger) hL hw
      rwa [Nat.add_sub_cancel' (h1.trans h12)] at this
    have e1 : usub (t1 % W) s.lastTrigger = t1 - s.lastTrigger := by
      have := usub_true_duration s.lastTrigger (t1 - s.lastTrigger) hL (by omega)
      rwa [Nat.add_sub_cancel' h1] at this
    simp only [nblock_delay.remaining, e1, e2]
    split <;> split <;> omega
  · intro s now n2
    by_cases h : s.interval ≤ usub now s.lastTrigger <;>
      simp [nblock_delay.remaining, nblock_delay.elapsed, h] <;> omega

/-- C8 witness: with interval 10 and lastTrigger 0, the remaining time at
clock reading 7 is at most the remaining time at clock reading 3. -/
theorem remaining_monotone_spec_witness :
    (nblock_delay.remaining ⟨10, 0⟩ (7 % W)).1 ≤
      (nblock_delay.remaining ⟨10, 0⟩ (3 % W)).1 :=
  remaining_monotone_spec.1 ⟨10, 0⟩ 3 7 (by decide) (by decide) (by decide)
    (by decide)

/-- One public method call on a `nblock_delay` object, carrying the raw clock
values the call would read from `millis()`. -/
inductive Op where
  | elapsedOp (now1 now2 : Nat)
  | triggerOp (now1 now2 : Nat)
  | waitingOp (now : Nat)
  | resetOp (now : Nat)
  | setIntervalOp (i : Nat)
  | remainingOp (now : Nat)
  deriving DecidableEq, Repr

/-- The state after executing one method call. -/
def step (s : nblock_delay) : Op → nblock_delay
  | .elapsedOp n1 n2 => (s.elapsed n1 n2).2
  | .triggerOp n1 n2 => (s.trigger n1 n2).2
  | .waitingOp n => (s.waiting n).2
  | .resetOp n => s.reset n
  | .setIntervalOp i => s.setInterval i
  | .remainingOp n => (s.remaining n).2

/-- The `millis()` values (32-bit observed readings) returned by the clock
while executing one method call on state `s`: `elapsed`/`trigger` read the
clock once, and a second time only on the true branch; `setInterval` never
reads the clock. -/
def opReads (s : nblock_delay) : Op → List Nat
  | .elapsedOp n1 n2 =>
      if s.interval ≤ usub n1 s.lastTrigger then [n1 % W, n2 % W] else [n1 % W]
  | .triggerOp n1 n2 =>
      if s.interval ≤ usub n1 s.lastTrigger then [n1 % W, n2 % W] else [n1 % W]
  | .waitingOp n => [n % W]
  | .resetOp n => [n % W]
  | .setIntervalOp _ => []
  | .remainingOp n => [n % W]

/-- The state after executing a sequence of method calls. -/
def run (s : nblock_delay) : List Op → nblock_delay
  | [] => s
  | op :: ops => run (step s op) ops

/-- All `millis()` values returned by the clock along a sequence of calls. -/
def traceReads (s : nblock_delay) : List Op → List Nat
  | [] => []
  | op :: ops => opReads s op ++ traceReads (step s op) ops

/-- A single method call either leaves `lastTrigger` unchanged or stores one
of the clock readings it observed. -/
theorem step_lastTrigger (s : nblock_delay) (op : Op) :
    (step s op).lastTrigger = s.lastTrigger ∨
      (step s op).lastTrigger ∈ opReads s op := by
  cases op <;>
    simp only [step, opReads, nblock_delay.elapsed, nblock_delay.trigger,
      nblock_delay.waiting, nblock_delay.reset, nblock_delay.setInterval,
      nblock_delay.remaining] <;>
    first
      | (split <;> simp)
      | simp

/-- Along any sequence of calls, the final `lastTrigger` is either the initial
one or one of the clock readings observed along the trace. -/
theorem run_lastTrigger_mem (ops : List Op) (s : nblock_delay) :
    (run s ops).lastTrigger = s.lastTrigger ∨
      (run s ops).lastTrigger ∈ traceReads s ops := by
  induction ops generalizing s with
  | nil => exact Or.inl rfl
  | cons op ops ih =>
    show (run (step s op) ops).lastTrigger = s.lastTrigger ∨
      (run (step s op) ops).lastTrigger ∈ opReads s op ++ traceReads (step s op) ops
    rcases ih (step s op) with h | h
    · rw [h]
      rcases step_lastTrigger s op with h2 | h2
      · exact Or.inl h2
      · exact Or.inr (List.mem_append_left _ h2)
    · exact Or.inr (List.mem_append_right _ h)

/-- C10: starting from the constructor and running any sequence of method
calls, `lastTrigger` is always a value previously returned by the clock (the
constructor's reading or one observed along the trace); the constructor
stores a fresh reading; `waiting()`, `remaining()` and `setInterval()` never
write `lastTrigger`; and a timer state consists of nothing beyond its
interval and `lastTrigger` (no derived elapsed/expired flag is stored). -/
theorem lastTrigger_invariant :
    (∀ (i n0 : Nat) (ops : List Op),
      (run (nblock_delay.init i n0) ops).lastTrigger ∈
        (n0 % W) :: traceReads (nblock_delay.init i n0) ops) ∧
    (∀ i n : Nat, (nblock_delay.init i n).lastTrigger = n % W) ∧
    (∀ (s : nblock_delay) (n i : Nat),
      (s.waiting n).2 = s ∧ (s.remaining n).2 = s ∧
        (s.setInterval i).lastTrigger = s.lastTrigger) ∧
    (∀ s t : nblock_delay,
      s.interval = t.interval → s.lastTrigger = t.lastTrigger → s = t) := by
  refine ⟨?_, fun i n => rfl, fun s n i => ⟨rfl, rfl, rfl⟩, ?_⟩
  · intro i n0 ops
    rcases run_lastTrigger_mem ops (nblock_delay.init i n0) with h | h
    · rw [h]
      exact List.mem_cons_self _ _
    · exact List.mem_cons_of_mem _ h
  · intro s t h1 h2
    cases s
    cases t
    simp_all

/-- C10 witness: two states with equal fields are equal. -/
theorem lastTrigger_invariant_witness : (⟨1, 2⟩ : nblock_delay) = ⟨1, 2⟩ :=
  lastTrigger_invariant.2.2.2 ⟨1, 2⟩ ⟨1, 2⟩ rfl rfl

end NBD
